import Mathlib

/-!
# Verification of the dependency resolver (`deps_resolver.h`)

Shallow embedding of the hostpolicy dependency resolver
(`src/native/corehost/hostpolicy/deps_resolver.h`) in Lean 4.

Strings that the code only compares for equality (asset names, file
paths, runtime identifiers) are embedded as `String`.  The one routine
that inspects individual characters of a path (`get_app_dir`, which
reads `back()` and appends a directory separator) is embedded over
`List Char` so that the last-character access is explicit; reading
`back()` of an empty string is undefined behaviour in C++ and is
embedded as the `none` branch of an `Option` result.

The header gives the bodies of the constructor, `valid` and
`get_app_dir` inline; those are translated directly from the source.
The resolution algorithms (`resolve_tpa_list`, `resolve_probe_dirs`,
`probe_deps_entry`, `resolve_probe_paths`) are only declared in the
header; their behaviour is modelled from the specification, as marked
on each definition.
-/

namespace DepsResolver

/-- Asset kinds of a dependency entry (managed assembly / native
library / resource library). -/
inductive asset_types where
  | runtime
  | native
  | resources
deriving DecidableEq, Repr

/-- One declared asset: logical name, relative path inside its layer,
optional culture (for resource assets). -/
structure deps_asset_t where
  name : String
  relative_path : String
  culture : String
deriving DecidableEq, Repr

/-- One dependency entry: an asset together with its kind. -/
structure deps_entry_t where
  asset : deps_asset_t
  asset_type : asset_types
deriving DecidableEq, Repr

/-- A dependency entry paired with its resolved path
(`deps_resolved_asset_t` in the header). -/
structure deps_resolved_asset_t where
  asset : deps_asset_t
  resolved_path : String
deriving DecidableEq, Repr

/-- RID fallback graph: map from runtime identifier to its ordered
fallback list (`deps_json_t::rid_fallback_graph_t`). -/
def rid_fallback_graph_t : Type := List (String × List String)

instance : DecidableEq rid_fallback_graph_t :=
  inferInstanceAs (DecidableEq (List (String × List String)))

/-- One layer's manifest object (`deps_json_t`): its file path, the RID
fallback graph it ended up with, whether its backing file exists on
disk, and whether it parsed successfully. -/
structure deps_json_t where
  deps_file : String
  rid_fallback_graph : rid_fallback_graph_t
  exists_on_disk : Bool
  is_valid : Bool
deriving DecidableEq

/-! ## `valid` (lines 90-122 of the header)

Translated directly from the source: iterate `m_fx_deps` by index from
0; for every index other than 0 check `exists()` first, then check
`is_valid()` for every index; afterwards check `is_valid()` of each
additional manifest; on the first failure assign the error message and
return `false`; otherwise clear the errors string and return `true`.
The C++ out-parameter `errors` is embedded as the second component of
the returned pair, with success returning `(true, "")` (the cleared
string). -/

/-- Error message for a missing manifest, as assigned at line 99. -/
def missing_manifest_msg (deps_file : String) : String :=
  "A fatal error was encountered, missing dependencies manifest at: " ++ deps_file

/-- Error message for a manifest that failed to parse, as assigned at
lines 106 and 115. -/
def parse_error_msg (deps_file : String) : String :=
  "An error occurred while parsing: " ++ deps_file

/-- The check `valid` performs for the fx layer at index `i`: for a
non-application layer (`i ≠ 0`) existence is checked first, then parse
validity; the application layer (`i = 0`) is only checked for parse
validity. Returns the error message produced, or `none` if the layer
passes. -/
def fx_layer_error (i : Nat) (d : deps_json_t) : Option String :=
  if i ≠ 0 ∧ ¬ d.exists_on_disk then
    some (missing_manifest_msg d.deps_file)
  else if ¬ d.is_valid then
    some (parse_error_msg d.deps_file)
  else
    none

/-- First error over the fx layers, scanning in index order starting
from index `i` (the loop at lines 92-109). -/
def first_fx_error (i : Nat) : List deps_json_t → Option String
  | [] => none
  | d :: rest =>
    match fx_layer_error i d with
    | some e => some e
    | none => first_fx_error (i + 1) rest

/-- First error over the additional manifests (the loop at lines
111-118): parse validity only. -/
def first_additional_error : List deps_json_t → Option String
  | [] => none
  | d :: rest =>
    if ¬ d.is_valid then some (parse_error_msg d.deps_file)
    else first_additional_error rest

/-- Embedding of `deps_resolver_t::valid`: the fx-layer loop, then the
additional-manifest loop, then `errors->clear(); return true`. -/
def valid (m_fx_deps : List deps_json_t) (m_additional_deps : List deps_json_t) :
    Bool × String :=
  match first_fx_error 0 m_fx_deps with
  | some e => (false, e)
  | none =>
    match first_additional_error m_additional_deps with
    | some e => (false, e)
    | none => (true, "")

/-! ## `get_app_dir` (lines 143-171 of the header) -/

/-- Host modes (`host_mode_t`). -/
inductive host_mode_t where
  | invalid
  | muxer
  | apphost
  | split_fx
  | libhost
deriving DecidableEq, Repr

/-- The facts `get_app_dir` consumes from the bundle collaborator:
whether the process runs as a single-file bundle, whether that bundle
is in netcoreapp3 compatibility mode, and its extraction directory. -/
structure bundle_info_t where
  is_single_file_bundle : Bool
  is_netcoreapp3_compat_mode : Bool
  extraction_path : List Char

/-- The platform directory separator (`DIR_SEPARATOR`). -/
def DIR_SEPARATOR : Char := '/'

/-- The path `get_app_dir` stores into `*app_dir` before the
trailing-separator step, for a non-libhost mode: `m_app_dir`, replaced
by the bundle extraction path when the mode is `apphost`, the process
is a single-file bundle and the bundle is in netcoreapp3 compat mode
(lines 151-162). -/
def get_app_dir_selected (m_host_mode : host_mode_t) (m_app_dir : List Char)
    (bundle : bundle_info_t) : List Char :=
  if m_host_mode = host_mode_t.apphost ∧ bundle.is_single_file_bundle
      ∧ bundle.is_netcoreapp3_compat_mode then
    bundle.extraction_path
  else
    m_app_dir

/-- Embedding of `deps_resolver_t::get_app_dir`: returns the empty string for
`libhost`; otherwise takes the selected path and ensures it ends with
`DIR_SEPARATOR`, appending one only when the last character is not
already the separator.  The separator step reads `app_dir->back()`,
which on an empty string is undefined behaviour in C++; that branch is
embedded as `none`. -/
def get_app_dir (m_host_mode : host_mode_t) (m_app_dir : List Char)
    (bundle : bundle_info_t) : Option (List Char) :=
  if m_host_mode = host_mode_t.libhost then
    some []
  else
    let app_dir := get_app_dir_selected m_host_mode m_app_dir bundle
    match app_dir.getLast? with
    | none => none
    | some c =>
      if c ≠ DIR_SEPARATOR then some (app_dir ++ [DIR_SEPARATOR])
      else some app_dir

/-! ## Constructor of `deps_resolver_t` (lines 44-88 of the header)

The constructor loop itself is given inline in the header.  The
`deps_json_t` constructor it calls is not under `src/`; its effect on
the RID fallback graph is modelled from the spec via an oracle. -/

/-- One framework layer descriptor (`fx_definition_t`): its directory
and logical name, as consumed through `get_dir()` / `get_name()`. -/
structure fx_definition_t where
  dir : String
  name : String
deriving DecidableEq, Repr

/-- Modelled from the spec: the behaviour of the external manifest
object `deps_json_t`, which is declared in `deps_format.h` (not under
`src/`).  For a fixed filesystem, `parse_rid_graph f` is the RID
fallback graph a manifest at path `f` derives from its own content,
`manifest_exists f` whether the file exists, and `parses_ok f` whether
it parses successfully. -/
structure deps_json_oracle where
  parse_rid_graph : String → rid_fallback_graph_t
  manifest_exists : String → Bool
  parses_ok : String → Bool

/-- Modelled from the spec: constructing `deps_json_t(rid_resolution,
deps_file, graph)` — when the `graph` pointer is null (`none`) the
manifest derives its own RID fallback graph from its file; when it is
supplied, the manifest uses the supplied graph. -/
def mk_deps_json (o : deps_json_oracle) (deps_file : String)
    (graph : Option rid_fallback_graph_t) : deps_json_t :=
  { deps_file := deps_file
    rid_fallback_graph :=
      match graph with
      | none => o.parse_rid_graph deps_file
      | some g => g
    exists_on_disk := o.manifest_exists deps_file
    is_valid := o.parses_ok deps_file }

/-- Modelled from the spec: `append_path` joins a directory and a file
name with the directory separator (manifests live at
`<dir>/<name>.deps.<ext>`). -/
def append_path (dir : String) (file : String) : String :=
  dir ++ "/" ++ file

/-- Embedding of `deps_resolver_t::get_fx_deps` (lines 193-199): the deps file of a
framework layer is `<fx_dir>/<fx_name>.deps.json`. -/
def get_fx_deps (fx_dir : String) (fx_name : String) : String :=
  append_path fx_dir (fx_name ++ ".deps.json")

/-- The deps file chosen for index `i` in the constructor loop (lines
65-67): `args.deps_path` for the application layer (index 0),
`get_fx_deps` of the layer's directory and name otherwise. -/
def ctor_deps_files (deps_path : String) (fx_definitions : List fx_definition_t) :
    List String :=
  fx_definitions.enum.map fun p =>
    if p.1 = 0 then deps_path else get_fx_deps p.2.dir p.2.name

/-- The constructor loop (lines 62-83), processing layers from the
root (highest index) down to the application; `files` lists the deps
files of the layers still to process, root first; the second argument
is the current value of the `root_framework_rid_fallback_graph`
pointer (`none` embeds null).  When the pointer is null the layer
being processed is the root (`i == lowest_framework`): its manifest is
built without a graph (deriving its own) and the pointer is then set
to that root graph; every other layer is built with the pointed-to
graph. -/
def ctor_loop (o : deps_json_oracle) :
    List String → Option rid_fallback_graph_t → List deps_json_t
  | [], _ => []
  | f :: rest, none =>
    let d := mk_deps_json o f none
    d :: ctor_loop o rest (some d.rid_fallback_graph)
  | f :: rest, some g =>
    mk_deps_json o f (some g) :: ctor_loop o rest (some g)

/-- The `m_fx_deps` vector as filled by the constructor: the loop runs
over the layers from root to application, so it consumes the deps-file
list in reverse, and the resulting root-first list is reversed back to
index order (application first). -/
def ctor_fx_deps (o : deps_json_oracle) (deps_path : String)
    (fx_definitions : List fx_definition_t)
    (root_framework_rid_fallback_graph : Option rid_fallback_graph_t) :
    List deps_json_t :=
  (ctor_loop o (ctor_deps_files deps_path fx_definitions).reverse
    root_framework_rid_fallback_graph).reverse

/-! ## Resolution algorithms

`resolve_tpa_list`, `resolve_probe_dirs`, `probe_deps_entry` and
`resolve_probe_paths` are declared in the header (lines 126-129 and
201-219) but their bodies are in `deps_resolver.cpp`, which is not
under `src/`; they are modelled from the spec (§4.3).  The per-entry
probe (`probe_deps_entry`) is abstracted as a resolution oracle: for a
fixed filesystem, bundle and Probe Configuration Set, `res e` is the
path the probe resolves entry `e` to, or `none` when no candidate
satisfies it. -/

/-- The managed-kind (runtime) entries of a manifest, in declared
order. -/
def managed_entries (entries : List deps_entry_t) : List deps_entry_t :=
  entries.filter fun e => decide (e.asset_type = asset_types.runtime)

/-- The entries of a manifest of a given asset kind, in declared
order. -/
def entries_of_type (t : asset_types) (entries : List deps_entry_t) :
    List deps_entry_t :=
  entries.filter fun e => decide (e.asset_type = t)

/-- The logical names of a list of entries, in order. -/
def entry_names (entries : List deps_entry_t) : List String :=
  entries.map fun e => e.asset.name

/-- The logical names of a list of resolved assets, in order. -/
def tpa_names (out : List deps_resolved_asset_t) : List String :=
  out.map fun r => r.asset.name

/-- Modelled from the spec (§4.3, managed-library list resolution):
walk a list of managed entries in declared order; skip an entry whose
logical name is already in the breadcrumb set; otherwise resolve it
through the probe oracle; on success append the resolved asset to the
output and the name to the breadcrumb set; on failure skip the entry
when missing-assembly tolerance is in effect, and fail the whole
operation (`none`, the UnresolvableAsset error) otherwise. -/
def resolve_tpa_entries (res : deps_entry_t → Option String) (ignore_missing : Bool) :
    List deps_entry_t → List String → List deps_resolved_asset_t →
    Option (List String × List deps_resolved_asset_t)
  | [], breadcrumb, output => some (breadcrumb, output)
  | e :: rest, breadcrumb, output =>
    if e.asset.name ∈ breadcrumb then
      resolve_tpa_entries res ignore_missing rest breadcrumb output
    else
      match res e with
      | some p =>
        resolve_tpa_entries res ignore_missing rest
          (breadcrumb ++ [e.asset.name]) (output ++ [⟨e.asset, p⟩])
      | none =>
        if ignore_missing then
          resolve_tpa_entries res ignore_missing rest breadcrumb output
        else
          none

/-- Modelled from the spec (§4.3): the layer walk of
`resolve_tpa_list`, from the application layer (index 0) to the root
(last index), processing each layer's managed entries in declared
order with one shared breadcrumb set. -/
def resolve_tpa_layers (res : deps_entry_t → Option String) (ignore_missing : Bool) :
    List (List deps_entry_t) → List String → List deps_resolved_asset_t →
    Option (List String × List deps_resolved_asset_t)
  | [], breadcrumb, output => some (breadcrumb, output)
  | layer :: rest, breadcrumb, output =>
    match resolve_tpa_entries res ignore_missing (managed_entries layer) breadcrumb output with
    | none => none
    | some (breadcrumb', output') =>
      resolve_tpa_layers res ignore_missing rest breadcrumb' output'

/-- Modelled from the spec (§4.3): `resolve_tpa_list` — the framework
layer stack is walked with the caller's missing-assembly tolerance,
then the additional (optional) manifests are walked with tolerance
forced on. -/
def resolve_tpa_list (res : deps_entry_t → Option String)
    (layers additional : List (List deps_entry_t)) (ignore_missing_assemblies : Bool) :
    Option (List String × List deps_resolved_asset_t) :=
  match resolve_tpa_layers res ignore_missing_assemblies layers [] [] with
  | none => none
  | some (breadcrumb, output) =>
    resolve_tpa_layers res true additional breadcrumb output

/-- Append an element to an ordered list unless it is already present
(insertion into an ordered set, first-seen order). -/
def add_unique (l : List String) (x : String) : List String :=
  if x ∈ l then l else l ++ [x]

/-- Modelled from the spec (§4.3, probe-directory list resolution):
walk entries in declared order; `resdir e` is the resolved containing
directory of entry `e` (including the culture subdirectory for
resource assets) under the fixed filesystem and probe configuration,
or `none` when the entry is unresolvable, in which case it is skipped.
Each resolved directory is appended to the output unless already
present; each resolved entry's name is recorded in the breadcrumb
set. -/
def resolve_probe_dirs_entries (resdir : deps_entry_t → Option String) :
    List deps_entry_t → List String → List String → List String × List String
  | [], breadcrumb, output => (breadcrumb, output)
  | e :: rest, breadcrumb, output =>
    match resdir e with
    | some d =>
      resolve_probe_dirs_entries resdir rest
        (add_unique breadcrumb e.asset.name) (add_unique output d)
    | none => resolve_probe_dirs_entries resdir rest breadcrumb output

/-- Modelled from the spec (§4.3): `resolve_probe_dirs` — the
precedence walk from the application layer to the root over the
entries of the requested asset kind, producing the breadcrumb set and
the ordered, deduplicated directory list. -/
def resolve_probe_dirs (asset_type : asset_types)
    (resdir : deps_entry_t → Option String) (layers : List (List deps_entry_t))
    (breadcrumb : List String) : List String × List String :=
  resolve_probe_dirs_entries resdir (entries_of_type asset_type layers.flatten)
    breadcrumb []

/-- The output record of `resolve_probe_paths` (`probe_paths_t` in the
header): the three path-list-separator-joined output strings plus the
special core runtime path. -/
structure probe_paths_t where
  tpa : String
  native : String
  resources : String
  coreclr : String
deriving DecidableEq, Repr

/-- The platform path-list separator used to join output lists. -/
def PATH_SEPARATOR : String := ":"

/-- Modelled from the spec (§4.3, §6): `resolve_probe_paths` runs the
managed-library resolution and the two probe-directory resolutions
over one shared breadcrumb set, joins each output list with the
path-list separator, and reports the special core runtime path; it
fails exactly when the managed-library resolution fails. -/
def resolve_probe_paths (res resdir : deps_entry_t → Option String)
    (coreclr_path : String) (layers additional : List (List deps_entry_t))
    (ignore_missing_assemblies : Bool) : Option (probe_paths_t × List String) :=
  match resolve_tpa_list res layers additional ignore_missing_assemblies with
  | none => none
  | some (breadcrumb, output) =>
    let nat := resolve_probe_dirs asset_types.native resdir layers breadcrumb
    let rsc := resolve_probe_dirs asset_types.resources resdir layers nat.1
    some ({ tpa := String.intercalate PATH_SEPARATOR (output.map fun r => r.resolved_path)
            native := String.intercalate PATH_SEPARATOR nat.2
            resources := String.intercalate PATH_SEPARATOR rsc.2
            coreclr := coreclr_path }, rsc.1)

/-- The call `resolve_probe_paths(probe_paths, breadcrumb)` with the
tolerance parameter omitted: the header (line 129) declares
`ignore_missing_assemblies = false` as its default. -/
def resolve_probe_paths_default (res resdir : deps_entry_t → Option String)
    (coreclr_path : String) (layers additional : List (List deps_entry_t)) :
    Option (probe_paths_t × List String) :=
  resolve_probe_paths res resdir coreclr_path layers additional false

/-! ## Proof infrastructure: closed forms of the resolution walk -/

/-- The names a breadcrumb-gated walk adds, in order: the first
occurrence of each name not already in `seen`. -/
def new_names (seen : List String) : List String → List String
  | [] => []
  | n :: rest =>
    if n ∈ seen then new_names seen rest
    else n :: new_names (seen ++ [n]) rest

/-- Closed form of the managed walk when every entry resolves: the
output produced for a list of entries, given the names already
seen. -/
def tpa_model (res : deps_entry_t → Option String) (seen : List String) :
    List deps_entry_t → List deps_resolved_asset_t
  | [] => []
  | e :: rest =>
    if e.asset.name ∈ seen then tpa_model res seen rest
    else
      { asset := e.asset, resolved_path := (res e).getD "" } ::
        tpa_model res (seen ++ [e.asset.name]) rest

/-- A path with a trailing directory separator ensured: unchanged when
its last character is already the separator, with one separator
appended otherwise. -/
def with_trailing_separator (p : List Char) : List Char :=
  if p.getLast? = some DIR_SEPARATOR then p else p ++ [DIR_SEPARATOR]

/-! ## Concrete fixtures (used by witnesses) -/

/-- The application-layer "Widgets" entry of the end-to-end example
(spec §8). -/
def entry_widgets_app : deps_entry_t :=
  { asset := { name := "Widgets", relative_path := "app/Widgets.dll", culture := "" }
    asset_type := asset_types.runtime }

/-- The framework-layer "Widgets" entry of the end-to-end example. -/
def entry_widgets_fx : deps_entry_t :=
  { asset := { name := "Widgets", relative_path := "shared/Fx/Widgets.dll", culture := "" }
    asset_type := asset_types.runtime }

/-- The framework-layer "Utils" entry of the end-to-end example. -/
def entry_utils_fx : deps_entry_t :=
  { asset := { name := "Utils", relative_path := "shared/Fx/Utils.dll", culture := "" }
    asset_type := asset_types.runtime }

/-- A probe oracle under which every entry resolves to its declared
relative path. -/
def res_rel : deps_entry_t → Option String :=
  fun e => some e.asset.relative_path

/-- A probe oracle under which the "Utils" entry is satisfiable
nowhere and every other entry resolves to its relative path. -/
def res_no_utils : deps_entry_t → Option String :=
  fun e => if e.asset.name = "Utils" then none else some e.asset.relative_path

/-- A concrete manifest oracle: every manifest exists, parses, and
derives a one-node RID fallback graph from its own path. -/
def oracle_fixture : deps_json_oracle :=
  { parse_rid_graph := fun f => [(f, [])]
    manifest_exists := fun _ => true
    parses_ok := fun _ => true }

/-- A concrete RID fallback graph. -/
def graph_fixture : rid_fallback_graph_t :=
  [("linux-x64", ["linux", "any"])]

/-- A concrete bundle state: not a single-file bundle. -/
def bundle_fixture : bundle_info_t :=
  { is_single_file_bundle := false, is_netcoreapp3_compat_mode := false
    extraction_path := [] }

/-- A concrete bundle state: a single-file bundle in netcoreapp3
compatibility mode, extracted to `ex`. -/
def bundle_compat_fixture : bundle_info_t :=
  { is_single_file_bundle := true, is_netcoreapp3_compat_mode := true
    extraction_path := ['e', 'x'] }

/-- A concrete manifest whose file exists and parses. -/
def manifest_ok (f : String) : deps_json_t :=
  { deps_file := f, rid_fallback_graph := [], exists_on_disk := true, is_valid := true }

/-- A concrete manifest whose file is absent and which also fails to
parse. -/
def manifest_missing (f : String) : deps_json_t :=
  { deps_file := f, rid_fallback_graph := [], exists_on_disk := false, is_valid := false }

/-- A concrete manifest whose file exists but fails to parse. -/
def manifest_invalid (f : String) : deps_json_t :=
  { deps_file := f, rid_fallback_graph := [], exists_on_disk := true, is_valid := false }

/-- A concrete application manifest that is absent on disk yet parsed
(a framework-independent app may have none at index 0). -/
def manifest_app_absent (f : String) : deps_json_t :=
  { deps_file := f, rid_fallback_graph := [], exists_on_disk := false, is_valid := true }

/-- The application-layer manifest object the constructor fixture
produces when an external graph is supplied. -/
def app_manifest_fixture : deps_json_t :=
  { deps_file := "app.deps.json", rid_fallback_graph := graph_fixture
    exists_on_disk := true, is_valid := true }

/-- A concrete native-library entry in directory `d1`. -/
def entry_native_a : deps_entry_t :=
  { asset := { name := "libA", relative_path := "d1", culture := "" }
    asset_type := asset_types.native }

/-- A second concrete native-library entry sharing directory `d1`. -/
def entry_native_b : deps_entry_t :=
  { asset := { name := "libB", relative_path := "d1", culture := "" }
    asset_type := asset_types.native }

/-! # Theorems -/

/-! ## Lemmas about `valid` -/

/-- Scanning a concatenation whose left part raises no error continues
on the right part, with the index advanced past the left part. -/
theorem first_fx_error_skip (l1 : List deps_json_t) :
    ∀ (i : Nat) (l2 : List deps_json_t),
      (∀ j (hj : j < l1.length), fx_layer_error (i + j) (l1.get ⟨j, hj⟩) = none) →
      first_fx_error i (l1 ++ l2) = first_fx_error (i + l1.length) l2 := by
  induction l1 with
  | nil => intro i l2 _; simp
  | cons d l1 ih =>
    intro i l2 h
    have h0 : fx_layer_error i d = none := by
      have := h 0 (by simp)
      simpa using this
    have hrest : ∀ j (hj : j < l1.length),
        fx_layer_error (i + 1 + j) (l1.get ⟨j, hj⟩) = none := by
      intro j hj
      have := h (j + 1) (by simpa using Nat.succ_lt_succ hj)
      have harith : i + (j + 1) = i + 1 + j := by omega
      simpa [harith] using this
    have : first_fx_error i ((d :: l1) ++ l2) = first_fx_error (i + 1) (l1 ++ l2) := by
      simp [first_fx_error, h0]
    rw [this, ih (i + 1) l2 hrest]
    have : i + 1 + l1.length = i + (d :: l1).length := by simp; omega
    rw [this]

/-- Valid additional manifests raise no error, so scanning skips
them. -/
theorem first_additional_error_skip (a1 : List deps_json_t)
    (h : ∀ a ∈ a1, a.is_valid = true) :
    ∀ a2, first_additional_error (a1 ++ a2) = first_additional_error a2 := by
  induction a1 with
  | nil => intro a2; simp
  | cons a a1 ih =>
    intro a2
    have ha : a.is_valid = true := h a (by simp)
    have hrest : ∀ x ∈ a1, x.is_valid = true := fun x hx => h x (by simp [hx])
    simp [first_additional_error, ha, ih hrest]

/-- A list of valid additional manifests raises no error. -/
theorem first_additional_error_none (adds : List deps_json_t)
    (h : ∀ a ∈ adds, a.is_valid = true) :
    first_additional_error adds = none := by
  have := first_additional_error_skip adds h []
  simpa using this

/-! ## Lemmas about the constructor loop -/

/-- Once the root graph pointer is set, every manifest the loop builds
uses the pointed-to graph. -/
theorem ctor_loop_some_graph (o : deps_json_oracle) :
    ∀ (files : List String) (g : rid_fallback_graph_t),
      ∀ d ∈ ctor_loop o files (some g), d.rid_fallback_graph = g := by
  intro files
  induction files with
  | nil => intro g d hd; simp [ctor_loop] at hd
  | cons f rest ih =>
    intro g d hd
    simp only [ctor_loop, List.mem_cons] at hd
    rcases hd with hd | hd
    · subst hd; rfl
    · exact ih g d hd

/-- C2 helper: full characterisation of the graphs in `ctor_loop` when
the pointer starts out null: the first (root) file's own parsed graph
is used by every manifest. -/
theorem ctor_loop_none_graph (o : deps_json_oracle) (f : String) (rest : List String) :
    ∀ d ∈ ctor_loop o (f :: rest) none,
      d.rid_fallback_graph = o.parse_rid_graph f := by
  intro d hd
  simp only [ctor_loop, List.mem_cons] at hd
  rcases hd with hd | hd
  · subst hd; rfl
  · exact ctor_loop_some_graph o rest (o.parse_rid_graph f) d hd

/-! ## Claim theorems: construction and validation -/

/-- C2: after construction, if no external RID fallback graph was
supplied then every layer's manifest uses the root framework's own
graph (the graph the root parses from its own deps file, which is the
last entry of the deps-file list); if an external graph was supplied,
every layer, including the root, uses the supplied graph. -/
theorem rid_fallback_propagation (o : deps_json_oracle) (deps_path : String)
    (fx_definitions : List fx_definition_t) :
    (∀ g, ∀ d ∈ ctor_fx_deps o deps_path fx_definitions (some g),
        d.rid_fallback_graph = g) ∧
    (∀ root_file, (ctor_deps_files deps_path fx_definitions).getLast? = some root_file →
        ∀ d ∈ ctor_fx_deps o deps_path fx_definitions none,
          d.rid_fallback_graph = o.parse_rid_graph root_file) := by
  constructor
  · intro g d hd
    rw [ctor_fx_deps, List.mem_reverse] at hd
    exact ctor_loop_some_graph o _ g d hd
  · intro root_file hroot d hd
    rw [ctor_fx_deps, List.mem_reverse] at hd
    have hrev : (ctor_deps_files deps_path fx_definitions).reverse.head? = some root_file := by
      rw [List.head?_reverse]; exact hroot
    rcases hcons : (ctor_deps_files deps_path fx_definitions).reverse with _ | ⟨f, rest⟩
    · rw [hcons] at hrev; simp at hrev
    · rw [hcons] at hrev hd
      simp only [List.head?_cons, Option.some.injEq] at hrev
      subst hrev
      exact ctor_loop_none_graph o f rest d hd

/-- Witness for C2 at a concrete two-layer stack and oracle. -/
theorem rid_fallback_propagation_witness :
    app_manifest_fixture ∈
      ctor_fx_deps oracle_fixture "app.deps.json"
        [{ dir := "ad", name := "app" }, { dir := "d1", name := "fx1" }]
        (some graph_fixture) ∧
    app_manifest_fixture.rid_fallback_graph = graph_fixture :=
  ⟨by decide,
    (rid_fallback_propagation oracle_fixture "app.deps.json"
      [{ dir := "ad", name := "app" }, { dir := "d1", name := "fx1" }]).1
      graph_fixture _ (by decide)⟩

/-- C4: `valid` is fail-fast.  (i) With every layer before it passing,
a non-application layer whose manifest is missing is fatal with the
missing-manifest message naming that manifest's path, regardless of
anything after it.  (ii) The application layer (index 0) is exempt
from the existence check: parse validity alone makes it pass.  (iii)
With every layer before it passing, a layer manifest at any index,
the application layer included, that exists on disk (so the existence
check does not fire) but failed to parse is fatal with the parse
message naming that manifest's path.  (iv) A failed parse of an
additional manifest is fatal once every layer passed and every
additional manifest before it is valid.  (v) When every check passes,
`valid` clears the errors output and returns success. -/
theorem valid_fail_fast :
    (∀ (l1 : List deps_json_t) (d : deps_json_t) (l2 adds : List deps_json_t),
        l1 ≠ [] →
        (∀ j (hj : j < l1.length), fx_layer_error j (l1.get ⟨j, hj⟩) = none) →
        d.exists_on_disk = false →
        valid (l1 ++ d :: l2) adds = (false, missing_manifest_msg d.deps_file)) ∧
    (∀ d : deps_json_t, d.is_valid = true → fx_layer_error 0 d = none) ∧
    (∀ (l1 : List deps_json_t) (d : deps_json_t) (l2 adds : List deps_json_t),
        (∀ j (hj : j < l1.length), fx_layer_error j (l1.get ⟨j, hj⟩) = none) →
        d.exists_on_disk = true → d.is_valid = false →
        valid (l1 ++ d :: l2) adds = (false, parse_error_msg d.deps_file)) ∧
    (∀ (fx a1 : List deps_json_t) (d : deps_json_t) (a2 : List deps_json_t),
        first_fx_error 0 fx = none →
        (∀ a ∈ a1, a.is_valid = true) → d.is_valid = false →
        valid fx (a1 ++ d :: a2) = (false, parse_error_msg d.deps_file)) ∧
    (∀ fx adds : List deps_json_t,
        first_fx_error 0 fx = none → (∀ a ∈ adds, a.is_valid = true) →
        valid fx adds = (true, "")) := by
  refine ⟨?_, ?_, ?_, ?_, ?_⟩
  · intro l1 d l2 adds hne h1 hmiss
    have hskip := first_fx_error_skip l1 0 (d :: l2) (by simpa using h1)
    have hlen : l1.length ≠ 0 := by
      intro h; exact hne (List.eq_nil_of_length_eq_zero h)
    have herr : fx_layer_error l1.length d = some (missing_manifest_msg d.deps_file) := by
      simp [fx_layer_error, hlen, hmiss]
    rw [valid, hskip]
    simp [first_fx_error, herr]
  · intro d hv
    simp [fx_layer_error, hv]
  · intro l1 d l2 adds h1 hex hbad
    have hskip := first_fx_error_skip l1 0 (d :: l2) (by simpa using h1)
    have herr : fx_layer_error l1.length d = some (parse_error_msg d.deps_file) := by
      simp [fx_layer_error, hex, hbad]
    rw [valid, hskip]
    simp [first_fx_error, herr]
  · intro fx a1 d a2 hfx ha1 hd
    rw [valid, hfx, first_additional_error_skip a1 ha1 (d :: a2)]
    simp [first_additional_error, hd]
  · intro fx adds hfx hadds
    rw [valid, hfx, first_additional_error_none adds hadds]

/-- Witness for C4 at a concrete three-layer stack whose middle
layer's manifest is absent (and a concrete additional-manifest parse
failure and success case). -/
theorem valid_fail_fast_witness :
    valid [manifest_app_absent "app", manifest_missing "fx1", manifest_missing "fx2"] []
      = (false, missing_manifest_msg "fx1") ∧
    valid [manifest_ok "app", manifest_invalid "fx1"] []
      = (false, parse_error_msg "fx1") ∧
    valid [manifest_invalid "app"] [] = (false, parse_error_msg "app") ∧
    valid [manifest_app_absent "app"] [manifest_invalid "extra"]
      = (false, parse_error_msg "extra") ∧
    valid [manifest_app_absent "app"] [] = (true, "") := by
  refine ⟨?_, ?_, ?_, ?_, ?_⟩
  · exact valid_fail_fast.1 [manifest_app_absent "app"] (manifest_missing "fx1")
      [manifest_missing "fx2"] [] (by decide) (by decide) (by decide)
  · exact valid_fail_fast.2.2.1 [manifest_ok "app"] (manifest_invalid "fx1")
      [] [] (by decide) (by decide) (by decide)
  · exact valid_fail_fast.2.2.1 [] (manifest_invalid "app")
      [] [] (by decide) (by decide) (by decide)
  · exact valid_fail_fast.2.2.2.1 [manifest_app_absent "app"] [] (manifest_invalid "extra")
      [] (by decide) (by decide) (by decide)
  · exact valid_fail_fast.2.2.2.2 [manifest_app_absent "app"] [] (by decide) (by decide)

/-- C10: `valid` checks in a fixed order.  (i) For a non-application
layer, the existence check precedes the parse check: a missing
manifest yields the missing-manifest message regardless of parse
validity.  (ii) The fx scan proceeds in index order: layers that pass
are skipped and scanning continues at the next index.  (iii) An fx
error is reported in preference to anything later.  (iv) When every
layer passes, the result is decided by the additional manifests alone
— so an additional manifest's error is reported only in that case.
(v) Consequently a framework manifest that is both missing and
malformed is reported as missing, the parse error never surfacing. -/
theorem valid_check_order :
    (∀ (i : Nat) (d : deps_json_t), i ≠ 0 → d.exists_on_disk = false →
        fx_layer_error i d = some (missing_manifest_msg d.deps_file)) ∧
    (∀ (l1 : List deps_json_t) (i : Nat) (l2 : List deps_json_t),
        (∀ j (hj : j < l1.length), fx_layer_error (i + j) (l1.get ⟨j, hj⟩) = none) →
        first_fx_error i (l1 ++ l2) = first_fx_error (i + l1.length) l2) ∧
    (∀ (fx adds : List deps_json_t) (e : String),
        first_fx_error 0 fx = some e → valid fx adds = (false, e)) ∧
    (∀ fx adds : List deps_json_t, first_fx_error 0 fx = none →
        valid fx adds =
          (match first_additional_error adds with
            | some e => (false, e)
            | none => (true, ""))) ∧
    (∀ (l1 : List deps_json_t) (d : deps_json_t) (l2 adds : List deps_json_t),
        l1 ≠ [] →
        (∀ j (hj : j < l1.length), fx_layer_error j (l1.get ⟨j, hj⟩) = none) →
        d.exists_on_disk = false → d.is_valid = false →
        valid (l1 ++ d :: l2) adds = (false, missing_manifest_msg d.deps_file)) := by
  refine ⟨?_, ?_, ?_, ?_, ?_⟩
  · intro i d hi hmiss
    simp [fx_layer_error, hi, hmiss]
  · intro l1 i l2 h
    exact first_fx_error_skip l1 i l2 h
  · intro fx adds e he
    rw [valid, he]
  · intro fx adds hfx
    rw [valid, hfx]
  · intro l1 d l2 adds hne h1 hmiss _
    have hskip := first_fx_error_skip l1 0 (d :: l2) (by simpa using h1)
    have hlen : l1.length ≠ 0 := by
      intro h; exact hne (List.eq_nil_of_length_eq_zero h)
    rw [valid, hskip]
    simp [first_fx_error, fx_layer_error, hlen, hmiss]

/-- Witness for C10: a layer that is both missing and malformed is
reported as missing, and an additional-manifest error surfaces only
once the layers pass. -/
theorem valid_check_order_witness :
    fx_layer_error 1 (manifest_missing "fx1") = some (missing_manifest_msg "fx1") ∧
    valid [manifest_ok "app", manifest_missing "fx1"] [manifest_invalid "extra"]
      = (false, missing_manifest_msg "fx1") ∧
    valid [manifest_ok "app"] [manifest_invalid "extra"]
      = (false, parse_error_msg "extra") := by
  refine ⟨?_, ?_, ?_⟩
  · exact valid_check_order.1 1 (manifest_missing "fx1") (by decide) (by decide)
  · exact valid_check_order.2.2.2.2 [manifest_ok "app"] (manifest_missing "fx1")
      [] [manifest_invalid "extra"] (by decide) (by decide) (by decide) (by decide)
  · have h := valid_check_order.2.2.2.1 [manifest_ok "app"] [manifest_invalid "extra"]
      (by decide)
    simpa [first_additional_error, manifest_invalid, parse_error_msg] using h

/-! ## Claim theorems: `get_app_dir` -/

/-- C5: whenever `get_app_dir` returns a non-empty path, that path
ends with the platform directory separator; moreover the separator is
appended only when the selected path's last character is not already
the separator, and the path is returned unchanged when it is (no
double separator is ever produced by the append). -/
theorem get_app_dir_trailing_separator (mode : host_mode_t) (app : List Char)
    (b : bundle_info_t) (s : List Char)
    (h : get_app_dir mode app b = some s) (hs : s ≠ []) :
    s.getLast? = some DIR_SEPARATOR ∧
      (∀ c, (get_app_dir_selected mode app b).getLast? = some c →
        (c = DIR_SEPARATOR → s = get_app_dir_selected mode app b) ∧
        (c ≠ DIR_SEPARATOR → s = get_app_dir_selected mode app b ++ [DIR_SEPARATOR])) := by
  by_cases hl : mode = host_mode_t.libhost
  · rw [get_app_dir, if_pos hl] at h
    exact absurd (Option.some.inj h).symm hs
  · rw [get_app_dir, if_neg hl] at h
    rcases hg : (get_app_dir_selected mode app b).getLast? with _ | c
    · simp only [hg] at h
      exact Option.noConfusion h
    · simp only [hg] at h
      by_cases hc : c = DIR_SEPARATOR
      · rw [if_neg (by simpa using hc)] at h
        have hsel : s = get_app_dir_selected mode app b := (Option.some.inj h).symm
        refine ⟨by rw [hsel, hg, hc], ?_⟩
        intro c2 hc2
        have : c2 = c := (Option.some.inj hc2).symm
        subst this
        exact ⟨fun _ => hsel, fun hne => absurd hc hne⟩
      · rw [if_pos hc] at h
        have hsel : s = get_app_dir_selected mode app b ++ [DIR_SEPARATOR] :=
          (Option.some.inj h).symm
        refine ⟨by rw [hsel]; exact List.getLast?_concat _, ?_⟩
        intro c2 hc2
        have : c2 = c := (Option.some.inj hc2).symm
        subst this
        exact ⟨fun he => absurd he hc, fun _ => hsel⟩

/-- Witness for C5 in muxer mode at a non-empty application root
without a trailing separator. -/
theorem get_app_dir_trailing_separator_witness :
    (['a', DIR_SEPARATOR] : List Char).getLast? = some DIR_SEPARATOR ∧
      (∀ c, (get_app_dir_selected host_mode_t.muxer ['a'] bundle_fixture).getLast? = some c →
        (c = DIR_SEPARATOR →
          ['a', DIR_SEPARATOR] = get_app_dir_selected host_mode_t.muxer ['a'] bundle_fixture) ∧
        (c ≠ DIR_SEPARATOR →
          ['a', DIR_SEPARATOR] =
            get_app_dir_selected host_mode_t.muxer ['a'] bundle_fixture ++ [DIR_SEPARATOR])) :=
  get_app_dir_trailing_separator host_mode_t.muxer ['a'] bundle_fixture
    ['a', DIR_SEPARATOR] (by decide) (by decide)

/-- C6: `get_app_dir` returns the empty string in libhost (embedded
library) mode; in apphost mode with a single-file bundle in
netcoreapp3 compatibility mode it returns the bundle's extraction
directory (with the trailing separator ensured); in every other
non-libhost situation it returns the configured application root (with
the trailing separator ensured). -/
theorem get_app_dir_mode_cases (mode : host_mode_t) (app : List Char) (b : bundle_info_t) :
    (mode = host_mode_t.libhost → get_app_dir mode app b = some []) ∧
    (mode = host_mode_t.apphost → b.is_single_file_bundle = true →
      b.is_netcoreapp3_compat_mode = true → b.extraction_path ≠ [] →
      get_app_dir mode app b = some (with_trailing_separator b.extraction_path)) ∧
    (mode ≠ host_mode_t.libhost →
      ¬ (mode = host_mode_t.apphost ∧ b.is_single_file_bundle = true
          ∧ b.is_netcoreapp3_compat_mode = true) →
      app ≠ [] →
      get_app_dir mode app b = some (with_trailing_separator app)) := by
  refine ⟨?_, ?_, ?_⟩
  · intro hl; rw [get_app_dir, if_pos hl]
  · intro hm hb hcompat hex
    have hnl : mode ≠ host_mode_t.libhost := by rw [hm]; decide
    have hsel : get_app_dir_selected mode app b = b.extraction_path := by
      rw [get_app_dir_selected, if_pos ⟨hm, hb, hcompat⟩]
    rw [get_app_dir, if_neg hnl, hsel]
    rcases hg : b.extraction_path.getLast? with _ | c
    · exact absurd (List.getLast?_eq_none_iff.mp hg) hex
    · simp only [hg]
      by_cases hc : c = DIR_SEPARATOR
      · rw [if_neg (by simpa using hc), with_trailing_separator, if_pos (by rw [hg, hc])]
      · rw [if_pos hc, with_trailing_separator,
          if_neg (by rw [hg]; simpa using hc)]
  · intro hnl hnb hne
    have hsel : get_app_dir_selected mode app b = app := by
      rw [get_app_dir_selected, if_neg]
      simpa using hnb
    rw [get_app_dir, if_neg hnl, hsel]
    rcases hg : app.getLast? with _ | c
    · exact absurd (List.getLast?_eq_none_iff.mp hg) hne
    · simp only [hg]
      by_cases hc : c = DIR_SEPARATOR
      · rw [if_neg (by simpa using hc), with_trailing_separator, if_pos (by rw [hg, hc])]
      · rw [if_pos hc, with_trailing_separator,
          if_neg (by rw [hg]; simpa using hc)]

/-- Witness for C6 at concrete modes, application root and bundle
states. -/
theorem get_app_dir_mode_cases_witness :
    get_app_dir host_mode_t.libhost ['a'] bundle_compat_fixture = some [] ∧
    get_app_dir host_mode_t.apphost ['a'] bundle_compat_fixture
      = some (with_trailing_separator bundle_compat_fixture.extraction_path) ∧
    get_app_dir host_mode_t.muxer ['a'] bundle_compat_fixture
      = some (with_trailing_separator ['a']) :=
  ⟨(get_app_dir_mode_cases host_mode_t.libhost ['a'] bundle_compat_fixture).1 rfl,
   (get_app_dir_mode_cases host_mode_t.apphost ['a'] bundle_compat_fixture).2.1
     rfl rfl rfl (by decide),
   (get_app_dir_mode_cases host_mode_t.muxer ['a'] bundle_compat_fixture).2.2
     (by decide) (by decide) (by decide)⟩

/-- C9: `get_app_dir` is total exactly when the mode is libhost or the
path selected for the mode (the configured application root, or the
bundle extraction path in apphost compat-bundle mode) is non-empty;
the `back()` read on an empty selected path is the sole error
branch. -/
theorem get_app_dir_total_iff (mode : host_mode_t) (app : List Char) (b : bundle_info_t) :
    (get_app_dir mode app b).isSome = true ↔
      (mode = host_mode_t.libhost ∨ get_app_dir_selected mode app b ≠ []) := by
  by_cases hl : mode = host_mode_t.libhost
  · rw [get_app_dir, if_pos hl]
    simp [hl]
  · rw [get_app_dir, if_neg hl]
    rcases hg : (get_app_dir_selected mode app b).getLast? with _ | c
    · simp [hl, List.getLast?_eq_none_iff.mp hg]
    · have hne : get_app_dir_selected mode app b ≠ [] := by
        intro he; rw [he] at hg; simp at hg
      simp only [hg]
      by_cases hc : c ≠ DIR_SEPARATOR
      · rw [if_pos hc]; simp [hne]
      · rw [if_neg hc]; simp [hne]

/-! ## Lemmas about the managed-library walk -/

/-- One step of the entry walk, spelled out. -/
theorem resolve_tpa_entries_cons (res : deps_entry_t → Option String) (ig : Bool)
    (e : deps_entry_t) (rest : List deps_entry_t) (bc : List String)
    (out : List deps_resolved_asset_t) :
    resolve_tpa_entries res ig (e :: rest) bc out =
      (if e.asset.name ∈ bc then resolve_tpa_entries res ig rest bc out
       else
        match res e with
        | some p =>
          resolve_tpa_entries res ig rest (bc ++ [e.asset.name]) (out ++ [⟨e.asset, p⟩])
        | none => if ig then resolve_tpa_entries res ig rest bc out else none) := rfl

/-- The empty entry walk changes nothing. -/
theorem resolve_tpa_entries_nil (res : deps_entry_t → Option String) (ig : Bool)
    (bc : List String) (out : List deps_resolved_asset_t) :
    resolve_tpa_entries res ig [] bc out = some (bc, out) := rfl

/-- One step of the layer walk, spelled out. -/
theorem resolve_tpa_layers_cons (res : deps_entry_t → Option String) (ig : Bool)
    (layer : List deps_entry_t) (rest : List (List deps_entry_t)) (bc : List String)
    (out : List deps_resolved_asset_t) :
    resolve_tpa_layers res ig (layer :: rest) bc out =
      (match resolve_tpa_entries res ig (managed_entries layer) bc out with
        | none => none
        | some (bc2, out2) => resolve_tpa_layers res ig rest bc2 out2) := rfl

/-- One step of `new_names`, spelled out. -/
theorem new_names_cons (seen : List String) (n : String) (rest : List String) :
    new_names seen (n :: rest) =
      (if n ∈ seen then new_names seen rest else n :: new_names (seen ++ [n]) rest) := rfl

/-- One step of `tpa_model`, spelled out. -/
theorem tpa_model_cons (res : deps_entry_t → Option String) (seen : List String)
    (e : deps_entry_t) (rest : List deps_entry_t) :
    tpa_model res seen (e :: rest) =
      (if e.asset.name ∈ seen then tpa_model res seen rest
       else { asset := e.asset, resolved_path := (res e).getD "" } ::
         tpa_model res (seen ++ [e.asset.name]) rest) := rfl

/-- Unfolding of `entry_names` on a cons. -/
theorem entry_names_cons (e : deps_entry_t) (rest : List deps_entry_t) :
    entry_names (e :: rest) = e.asset.name :: entry_names rest := rfl

/-- Unfolding of `tpa_names` on a cons. -/
theorem tpa_names_cons (r : deps_resolved_asset_t) (rest : List deps_resolved_asset_t) :
    tpa_names (r :: rest) = r.asset.name :: tpa_names rest := rfl

/-- The walk over a concatenation is the walk over the first part
followed by the walk over the second, threading breadcrumb and
output. -/
theorem resolve_tpa_entries_append (res : deps_entry_t → Option String) (ig : Bool)
    (l1 l2 : List deps_entry_t) :
    ∀ bc out, resolve_tpa_entries res ig (l1 ++ l2) bc out =
      (match resolve_tpa_entries res ig l1 bc out with
        | none => none
        | some p => resolve_tpa_entries res ig l2 p.1 p.2) := by
  induction l1 with
  | nil => intro bc out; rfl
  | cons e l1 ih =>
    intro bc out
    rw [List.cons_append, resolve_tpa_entries_cons, resolve_tpa_entries_cons]
    by_cases hm : e.asset.name ∈ bc
    · rw [if_pos hm, if_pos hm]
      exact ih bc out
    · rw [if_neg hm, if_neg hm]
      rcases hr : res e with _ | p
      · simp only [hr]
        by_cases hig : ig = true
        · rw [if_pos hig, if_pos hig]
          exact ih bc out
        · rw [if_neg hig, if_neg hig]
      · simp only [hr]
        exact ih (bc ++ [e.asset.name]) (out ++ [⟨e.asset, p⟩])

/-- The layer walk equals the entry walk over the concatenation of the
layers' managed entries. -/
theorem resolve_tpa_layers_eq (res : deps_entry_t → Option String) (ig : Bool)
    (layers : List (List deps_entry_t)) :
    ∀ bc out, resolve_tpa_layers res ig layers bc out =
      resolve_tpa_entries res ig (managed_entries layers.flatten) bc out := by
  induction layers with
  | nil => intro bc out; rfl
  | cons layer rest ih =>
    intro bc out
    have hsplit : managed_entries (layer :: rest).flatten =
        managed_entries layer ++ managed_entries rest.flatten := by
      simp [managed_entries, List.filter_append]
    rw [hsplit, resolve_tpa_entries_append, resolve_tpa_layers_cons]
    rcases h1 : resolve_tpa_entries res ig (managed_entries layer) bc out with _ | ⟨bc2, out2⟩
    · simp only [h1]
    · simp only [h1]
      exact ih bc2 out2

/-- Closed form of the entry walk when every entry resolves: no
failure, the breadcrumb set grows by the first occurrences of the new
names, and the output grows by `tpa_model`. -/
theorem resolve_tpa_entries_total (res : deps_entry_t → Option String) (ig : Bool)
    (entries : List deps_entry_t) :
    ∀ bc out, (∀ e ∈ entries, (res e).isSome = true) →
      resolve_tpa_entries res ig entries bc out =
        some (bc ++ new_names bc (entry_names entries), out ++ tpa_model res bc entries) := by
  induction entries with
  | nil => intro bc out _; simp [resolve_tpa_entries_nil, new_names, entry_names, tpa_model]
  | cons e rest ih =>
    intro bc out h
    have he : (res e).isSome = true := h e (by simp)
    rcases hr : res e with _ | p
    · rw [hr] at he; simp at he
    · have hrest : ∀ x ∈ rest, (res x).isSome = true := fun x hx => h x (by simp [hx])
      rw [resolve_tpa_entries_cons, entry_names_cons, new_names_cons, tpa_model_cons]
      by_cases hm : e.asset.name ∈ bc
      · rw [if_pos hm, if_pos hm, if_pos hm]
        exact ih bc out hrest
      · rw [if_neg hm, if_neg hm, if_neg hm]
        simp only [hr]
        have hi := ih (bc ++ [e.asset.name])
          (out ++ [({ asset := e.asset, resolved_path := p } : deps_resolved_asset_t)]) hrest
        rw [hi]
        simp [List.append_assoc]

/-- The names a walk adds form a subsequence of the names walked
over. -/
theorem new_names_sublist : ∀ (l : List String) (seen : List String),
    (new_names seen l).Sublist l := by
  intro l
  induction l with
  | nil => intro seen; simp [new_names]
  | cons n rest ih =>
    intro seen
    rw [new_names_cons]
    by_cases hm : n ∈ seen
    · rw [if_pos hm]
      exact (ih seen).cons n
    · rw [if_neg hm]
      exact (ih (seen ++ [n])).cons₂ n

/-- A name the walk adds was not already seen. -/
theorem new_names_not_seen : ∀ (l seen : List String) (n : String),
    n ∈ new_names seen l → n ∉ seen := by
  intro l
  induction l with
  | nil => intro seen n h; simp [new_names] at h
  | cons m rest ih =>
    intro seen n h
    rw [new_names_cons] at h
    by_cases hm : m ∈ seen
    · rw [if_pos hm] at h
      exact ih seen n h
    · rw [if_neg hm] at h
      rcases List.mem_cons.mp h with h | h
      · subst h; exact hm
      · intro hn
        exact ih (seen ++ [m]) n h (by simp [hn])

/-- The names a walk adds are pairwise distinct. -/
theorem new_names_nodup : ∀ (l seen : List String), (new_names seen l).Nodup := by
  intro l
  induction l with
  | nil => intro seen; simp [new_names]
  | cons m rest ih =>
    intro seen
    rw [new_names_cons]
    by_cases hm : m ∈ seen
    · rw [if_pos hm]; exact ih seen
    · rw [if_neg hm]
      refine List.nodup_cons.mpr ⟨?_, ih (seen ++ [m])⟩
      intro hmem
      exact new_names_not_seen rest (seen ++ [m]) m hmem (by simp)

/-- Membership in the added names: exactly the walked names not
already seen. -/
theorem new_names_mem : ∀ (l seen : List String) (n : String),
    n ∈ new_names seen l ↔ (n ∉ seen ∧ n ∈ l) := by
  intro l
  induction l with
  | nil => intro seen n; simp [new_names]
  | cons m rest ih =>
    intro seen n
    rw [new_names_cons]
    by_cases hm : m ∈ seen
    · rw [if_pos hm, ih seen n]
      constructor
      · rintro ⟨h1, h2⟩; exact ⟨h1, by simp [h2]⟩
      · rintro ⟨h1, h2⟩
        rcases List.mem_cons.mp h2 with h2 | h2
        · subst h2; exact absurd hm h1
        · exact ⟨h1, h2⟩
    · rw [if_neg hm]
      constructor
      · intro h
        rcases List.mem_cons.mp h with h | h
        · subst h; exact ⟨hm, by simp⟩
        · have := (ih (seen ++ [m]) n).mp h
          refine ⟨fun hn => this.1 (by simp [hn]), by simp [this.2]⟩
      · rintro ⟨h1, h2⟩
        rcases List.mem_cons.mp h2 with h2 | h2
        · subst h2; simp
        · by_cases hnm : n = m
          · subst hnm; simp
          · refine List.mem_cons.mpr (Or.inr ((ih (seen ++ [m]) n).mpr ⟨?_, h2⟩))
            simp [h1, hnm]

/-- The names of the modelled output are the added names. -/
theorem tpa_model_names (res : deps_entry_t → Option String) :
    ∀ (l : List deps_entry_t) (seen : List String),
      tpa_names (tpa_model res seen l) = new_names seen (entry_names l) := by
  intro l
  induction l with
  | nil => intro seen; simp [tpa_model, tpa_names, new_names, entry_names]
  | cons e rest ih =>
    intro seen
    rw [tpa_model_cons, entry_names_cons, new_names_cons]
    by_cases hm : e.asset.name ∈ seen
    · rw [if_pos hm, if_pos hm]
      exact ih seen
    · rw [if_neg hm, if_neg hm, tpa_names_cons, ih (seen ++ [e.asset.name])]

/-- Looking a fresh name up in the modelled output gives the first
entry declared with that name, paired with its resolution. -/
theorem tpa_model_find (res : deps_entry_t → Option String) :
    ∀ (l : List deps_entry_t) (seen : List String) (n : String), n ∉ seen →
      (tpa_model res seen l).find? (fun r => r.asset.name == n) =
        ((l.find? (fun e => e.asset.name == n)).map
          (fun e => { asset := e.asset, resolved_path := (res e).getD "" })) := by
  intro l
  induction l with
  | nil => intro seen n _; simp [tpa_model]
  | cons e rest ih =>
    intro seen n hn
    rw [tpa_model_cons]
    by_cases hm : e.asset.name ∈ seen
    · have hne : e.asset.name ≠ n := by
        intro h; rw [h] at hm; exact hn hm
      rw [if_pos hm, List.find?_cons_of_neg _ (by simpa using hne), ih seen n hn]
    · rw [if_neg hm]
      by_cases heq : e.asset.name = n
      · rw [List.find?_cons_of_pos _ (by simpa using heq),
          List.find?_cons_of_pos _ (by simpa using heq)]
        simp
      · rw [List.find?_cons_of_neg _ (by simpa using heq),
          List.find?_cons_of_neg _ (by simpa using heq)]
        refine ih (seen ++ [e.asset.name]) n ?_
        simp only [List.mem_append, List.mem_singleton]
        rintro (h | h)
        · exact hn h
        · exact heq h.symm

/-- A breadcrumb name after a successful walk was already present or
belongs to a walked entry. -/
theorem resolve_tpa_entries_breadcrumb (res : deps_entry_t → Option String) (ig : Bool) :
    ∀ (l : List deps_entry_t) (bc : List String) (out : List deps_resolved_asset_t)
      (bc2 : List String) (out2 : List deps_resolved_asset_t),
      resolve_tpa_entries res ig l bc out = some (bc2, out2) →
      ∀ n, n ∈ bc2 → n ∈ bc ∨ n ∈ entry_names l := by
  intro l
  induction l with
  | nil =>
    intro bc out bc2 out2 h n hn
    rw [resolve_tpa_entries_nil] at h
    have h' := Option.some.inj h
    rw [Prod.mk.injEq] at h'
    rw [← h'.1] at hn
    exact Or.inl hn
  | cons e rest ih =>
    intro bc out bc2 out2 h n hn
    rw [resolve_tpa_entries_cons] at h
    by_cases hm : e.asset.name ∈ bc
    · rw [if_pos hm] at h
      rcases ih bc out bc2 out2 h n hn with h1 | h1
      · exact Or.inl h1
      · refine Or.inr ?_
        rw [entry_names_cons]
        exact List.mem_cons.mpr (Or.inr h1)
    · rw [if_neg hm] at h
      rcases hr : res e with _ | p
      · rw [hr] at h
        by_cases hig : ig = true
        · rw [if_pos hig] at h
          rcases ih bc out bc2 out2 h n hn with h1 | h1
          · exact Or.inl h1
          · refine Or.inr ?_
            rw [entry_names_cons]
            exact List.mem_cons.mpr (Or.inr h1)
        · rw [if_neg hig] at h
          exact Option.noConfusion h
      · rw [hr] at h
        rcases ih (bc ++ [e.asset.name]) (out ++ [⟨e.asset, p⟩]) bc2 out2 h n hn with h1 | h1
        · rcases List.mem_append.mp h1 with h1 | h1
          · exact Or.inl h1
          · refine Or.inr ?_
            rw [entry_names_cons]
            simp only [List.mem_singleton] at h1
            exact List.mem_cons.mpr (Or.inl h1)
        · refine Or.inr ?_
          rw [entry_names_cons]
          exact List.mem_cons.mpr (Or.inr h1)

/-- An output element after a successful walk was already present or
originates from a walked entry that resolved to its path. -/
theorem resolve_tpa_entries_origin (res : deps_entry_t → Option String) (ig : Bool) :
    ∀ (l : List deps_entry_t) (bc : List String) (out : List deps_resolved_asset_t)
      (bc2 : List String) (out2 : List deps_resolved_asset_t),
      resolve_tpa_entries res ig l bc out = some (bc2, out2) →
      ∀ r ∈ out2, r ∈ out ∨ ∃ e ∈ l, r.asset = e.asset ∧ res e = some r.resolved_path := by
  intro l
  induction l with
  | nil =>
    intro bc out bc2 out2 h r hr
    rw [resolve_tpa_entries_nil] at h
    have h' := Option.some.inj h
    rw [Prod.mk.injEq] at h'
    rw [← h'.2] at hr
    exact Or.inl hr
  | cons e rest ih =>
    intro bc out bc2 out2 h r hr
    rw [resolve_tpa_entries_cons] at h
    by_cases hm : e.asset.name ∈ bc
    · rw [if_pos hm] at h
      rcases ih bc out bc2 out2 h r hr with h1 | ⟨e2, he2, h2⟩
      · exact Or.inl h1
      · exact Or.inr ⟨e2, List.mem_cons.mpr (Or.inr he2), h2⟩
    · rw [if_neg hm] at h
      rcases hres : res e with _ | p
      · rw [hres] at h
        by_cases hig : ig = true
        · rw [if_pos hig] at h
          rcases ih bc out bc2 out2 h r hr with h1 | ⟨e2, he2, h2⟩
          · exact Or.inl h1
          · exact Or.inr ⟨e2, List.mem_cons.mpr (Or.inr he2), h2⟩
        · rw [if_neg hig] at h
          exact Option.noConfusion h
      · rw [hres] at h
        rcases ih (bc ++ [e.asset.name]) (out ++ [⟨e.asset, p⟩]) bc2 out2 h r hr with
          h1 | ⟨e2, he2, h2⟩
        · rcases List.mem_append.mp h1 with h1 | h1
          · exact Or.inl h1
          · simp only [List.mem_singleton] at h1
            subst h1
            exact Or.inr ⟨e, List.mem_cons.mpr (Or.inl rfl), rfl, hres⟩
        · exact Or.inr ⟨e2, List.mem_cons.mpr (Or.inr he2), h2⟩

/-- With missing-assembly tolerance the walk never fails. -/
theorem resolve_tpa_entries_tolerant_total (res : deps_entry_t → Option String) :
    ∀ (l : List deps_entry_t) (bc : List String) (out : List deps_resolved_asset_t),
      (resolve_tpa_entries res true l bc out).isSome = true := by
  intro l
  induction l with
  | nil => intro bc out; rfl
  | cons e rest ih =>
    intro bc out
    rw [resolve_tpa_entries_cons]
    by_cases hm : e.asset.name ∈ bc
    · rw [if_pos hm]; exact ih bc out
    · rw [if_neg hm]
      rcases hr : res e with _ | p
      · simp only [hr, if_pos rfl]
        simpa using ih bc out
      · simp only [hr]
        exact ih (bc ++ [e.asset.name]) (out ++ [⟨e.asset, p⟩])

/-- A tolerant walk over entries that are satisfiable nowhere changes
nothing. -/
theorem resolve_tpa_entries_all_unresolvable (res : deps_entry_t → Option String) :
    ∀ (l : List deps_entry_t) (bc : List String) (out : List deps_resolved_asset_t),
      (∀ e ∈ l, res e = none) →
      resolve_tpa_entries res true l bc out = some (bc, out) := by
  intro l
  induction l with
  | nil => intro bc out _; rfl
  | cons e rest ih =>
    intro bc out h
    have he : res e = none := h e (by simp)
    have hrest : ∀ x ∈ rest, res x = none := fun x hx => h x (by simp [hx])
    rw [resolve_tpa_entries_cons]
    by_cases hm : e.asset.name ∈ bc
    · rw [if_pos hm]; exact ih bc out hrest
    · rw [if_neg hm]
      simp only [he, if_pos rfl]
      simpa using ih bc out hrest

/-! ## Lemmas about the probe-directory walk -/

/-- One step of the probe-directory walk, spelled out. -/
theorem resolve_probe_dirs_entries_cons (resdir : deps_entry_t → Option String)
    (e : deps_entry_t) (rest : List deps_entry_t) (bc out : List String) :
    resolve_probe_dirs_entries resdir (e :: rest) bc out =
      (match resdir e with
        | some d =>
          resolve_probe_dirs_entries resdir rest (add_unique bc e.asset.name) (add_unique out d)
        | none => resolve_probe_dirs_entries resdir rest bc out) := rfl

/-- Appending keeps a list duplicate-free. -/
theorem add_unique_nodup (out : List String) (d : String) (h : out.Nodup) :
    (add_unique out d).Nodup := by
  rw [add_unique]
  by_cases hm : d ∈ out
  · rw [if_pos hm]; exact h
  · rw [if_neg hm]
    simp [List.nodup_append, h, hm]

/-- Membership after appending uniquely. -/
theorem add_unique_mem (out : List String) (d x : String) :
    x ∈ add_unique out d ↔ (x ∈ out ∨ x = d) := by
  rw [add_unique]
  by_cases hm : d ∈ out
  · rw [if_pos hm]
    constructor
    · exact fun h => Or.inl h
    · rintro (h | h)
      · exact h
      · subst h; exact hm
  · rw [if_neg hm]; simp

/-- The directory list stays duplicate-free along the walk. -/
theorem probe_dirs_entries_nodup (resdir : deps_entry_t → Option String) :
    ∀ (l : List deps_entry_t) (bc out : List String), out.Nodup →
      ((resolve_probe_dirs_entries resdir l bc out).2).Nodup := by
  intro l
  induction l with
  | nil => intro bc out h; exact h
  | cons e rest ih =>
    intro bc out h
    rw [resolve_probe_dirs_entries_cons]
    rcases hr : resdir e with _ | d
    · exact ih bc out h
    · exact ih (add_unique bc e.asset.name) (add_unique out d) (add_unique_nodup out d h)

/-- The directory list is a subsequence of the accumulated output
followed by the resolved directories in declared order. -/
theorem probe_dirs_entries_sublist (resdir : deps_entry_t → Option String) :
    ∀ (l : List deps_entry_t) (bc out : List String),
      ((resolve_probe_dirs_entries resdir l bc out).2).Sublist (out ++ l.filterMap resdir) := by
  intro l
  induction l with
  | nil => intro bc out; simp [resolve_probe_dirs_entries]
  | cons e rest ih =>
    intro bc out
    rw [resolve_probe_dirs_entries_cons]
    rcases hr : resdir e with _ | d
    · rw [List.filterMap_cons_none hr]
      exact ih bc out
    · rw [List.filterMap_cons_some hr]
      simp only [hr]
      by_cases hm : d ∈ out
      · rw [show add_unique out d = out from by rw [add_unique, if_pos hm]]
        exact (ih (add_unique bc e.asset.name) out).trans
          (List.Sublist.append_left (List.sublist_cons_self d _) out)
      · rw [show add_unique out d = out ++ [d] from by rw [add_unique, if_neg hm]]
        refine (ih (add_unique bc e.asset.name) (out ++ [d])).trans ?_
        rw [List.append_assoc, List.singleton_append]

/-- Membership in the walked directory list. -/
theorem probe_dirs_entries_mem (resdir : deps_entry_t → Option String) :
    ∀ (l : List deps_entry_t) (bc out : List String) (x : String),
      x ∈ (resolve_probe_dirs_entries resdir l bc out).2 ↔
        (x ∈ out ∨ x ∈ l.filterMap resdir) := by
  intro l
  induction l with
  | nil => intro bc out x; simp [resolve_probe_dirs_entries]
  | cons e rest ih =>
    intro bc out x
    rw [resolve_probe_dirs_entries_cons]
    rcases hr : resdir e with _ | d
    · rw [List.filterMap_cons_none hr]
      exact ih bc out x
    · rw [List.filterMap_cons_some hr, ih (add_unique bc e.asset.name) (add_unique out d) x,
        add_unique_mem]
      constructor
      · rintro ((h | h) | h)
        · exact Or.inl h
        · subst h; exact Or.inr (by simp)
        · exact Or.inr (by simp [h])
      · rintro (h | h)
        · exact Or.inl (Or.inl h)
        · rcases List.mem_cons.mp h with h | h
          · exact Or.inl (Or.inr h)
          · exact Or.inr h

/-! ## Claim theorems: the resolution algorithms -/

/-- C7: in the probe-directory list, entries sharing a resolved
containing directory (with the culture subdirectory folded in for
resource assets) contribute exactly one directory; the list is
duplicate-free, contains exactly the resolved directories, and
preserves first-seen order (it is a subsequence of the resolved
directories in declared order). -/
theorem probe_dirs_dedup (resdir : deps_entry_t → Option String) (t : asset_types)
    (layers : List (List deps_entry_t)) (breadcrumb : List String) :
    ((resolve_probe_dirs t resdir layers breadcrumb).2).Nodup ∧
    ((resolve_probe_dirs t resdir layers breadcrumb).2).Sublist
      ((entries_of_type t layers.flatten).filterMap resdir) ∧
    (∀ d, d ∈ (resolve_probe_dirs t resdir layers breadcrumb).2 ↔
      d ∈ (entries_of_type t layers.flatten).filterMap resdir) ∧
    (∀ d, d ∈ (entries_of_type t layers.flatten).filterMap resdir →
      ((resolve_probe_dirs t resdir layers breadcrumb).2).count d = 1) := by
  have hnodup := probe_dirs_entries_nodup resdir (entries_of_type t layers.flatten)
    breadcrumb [] (by simp)
  have hsub := probe_dirs_entries_sublist resdir (entries_of_type t layers.flatten)
    breadcrumb []
  have hmem := probe_dirs_entries_mem resdir (entries_of_type t layers.flatten) breadcrumb []
  rw [List.nil_append] at hsub
  refine ⟨hnodup, hsub, ?_, ?_⟩
  · intro d
    rw [resolve_probe_dirs, hmem d]
    simp
  · intro d hd
    refine List.count_eq_one_of_mem hnodup ?_
    rw [resolve_probe_dirs, hmem d]
    simp [hd]

/-- Witness for C7: two same-layer native entries sharing directory
`d1` contribute a single `d1`. -/
theorem probe_dirs_dedup_witness :
    ((resolve_probe_dirs asset_types.native res_rel [[entry_native_a, entry_native_b]] []).2).Nodup ∧
    ((resolve_probe_dirs asset_types.native res_rel [[entry_native_a, entry_native_b]] []).2).count "d1" = 1 :=
  ⟨(probe_dirs_dedup res_rel asset_types.native [[entry_native_a, entry_native_b]] []).1,
   (probe_dirs_dedup res_rel asset_types.native [[entry_native_a, entry_native_b]] []).2.2.2
     "d1" (by decide)⟩

/-- C1: when every managed entry resolves, the managed-library list
holds exactly one resolved path per logical name: its names are
duplicate-free, appear in declared layer-major order (a subsequence of
the declared names, so order within each single layer is preserved),
and cover exactly the declared names; the path recorded for a name is
the resolution of the first entry declaring it walking from the
application layer (index 0) to the root — in particular a name
declared in the application layer resolves to the application-layer
path, and a root-framework entry contributes only if no higher layer
declared its name. -/
theorem tpa_precedence (res : deps_entry_t → Option String)
    (layers : List (List deps_entry_t))
    (hres : ∀ e ∈ managed_entries layers.flatten, (res e).isSome = true) :
    ∃ bc out, resolve_tpa_list res layers [] false = some (bc, out) ∧
      (tpa_names out).Sublist (entry_names (managed_entries layers.flatten)) ∧
      (tpa_names out).Nodup ∧
      (∀ n, n ∈ tpa_names out ↔ n ∈ entry_names (managed_entries layers.flatten)) ∧
      (∀ n, n ∈ entry_names (managed_entries layers.flatten) →
        (tpa_names out).count n = 1) ∧
      (∀ n, out.find? (fun r => r.asset.name == n) =
        ((managed_entries layers.flatten).find? (fun e => e.asset.name == n)).map
          (fun e => { asset := e.asset, resolved_path := (res e).getD "" })) ∧
      (∀ l0 rest, layers = l0 :: rest → ∀ n e0,
        (managed_entries l0).find? (fun e => e.asset.name == n) = some e0 →
        out.find? (fun r => r.asset.name == n) =
          some { asset := e0.asset, resolved_path := (res e0).getD "" }) := by
  have hlist : resolve_tpa_list res layers [] false =
      some (new_names [] (entry_names (managed_entries layers.flatten)),
        tpa_model res [] (managed_entries layers.flatten)) := by
    rw [resolve_tpa_list, resolve_tpa_layers_eq,
      resolve_tpa_entries_total res false (managed_entries layers.flatten) [] [] hres]
    simp [resolve_tpa_layers]
  refine ⟨_, _, hlist, ?_, ?_, ?_, ?_, ?_, ?_⟩
  · rw [tpa_model_names]
    exact new_names_sublist _ []
  · rw [tpa_model_names]
    exact new_names_nodup _ []
  · intro n
    rw [tpa_model_names, new_names_mem]
    simp
  · intro n hn
    refine List.count_eq_one_of_mem ?_ ?_
    · rw [tpa_model_names]; exact new_names_nodup _ []
    · rw [tpa_model_names, new_names_mem]; simp [hn]
  · intro n
    exact tpa_model_find res (managed_entries layers.flatten) [] n (by simp)
  · intro l0 rest hl n e0 h0
    subst hl
    rw [tpa_model_find res (managed_entries (l0 :: rest).flatten) [] n (by simp)]
    have hsplit : managed_entries (l0 :: rest).flatten =
        managed_entries l0 ++ managed_entries rest.flatten := by
      simp [managed_entries, List.filter_append]
    rw [hsplit, List.find?_append, h0]
    rfl

/-- Witness for C1 at the end-to-end example of spec §8: application
layer declares Widgets, the framework layer declares Widgets and
Utils. -/
theorem tpa_precedence_witness :
    ∃ bc out, resolve_tpa_list res_rel
        [[entry_widgets_app], [entry_widgets_fx, entry_utils_fx]] [] false = some (bc, out) ∧
      (tpa_names out).Sublist (entry_names (managed_entries
        [[entry_widgets_app], [entry_widgets_fx, entry_utils_fx]].flatten)) ∧
      (tpa_names out).Nodup ∧
      (∀ n, n ∈ tpa_names out ↔ n ∈ entry_names (managed_entries
        [[entry_widgets_app], [entry_widgets_fx, entry_utils_fx]].flatten)) ∧
      (∀ n, n ∈ entry_names (managed_entries
          [[entry_widgets_app], [entry_widgets_fx, entry_utils_fx]].flatten) →
        (tpa_names out).count n = 1) ∧
      (∀ n, out.find? (fun r => r.asset.name == n) =
        ((managed_entries [[entry_widgets_app], [entry_widgets_fx, entry_utils_fx]].flatten).find?
            (fun e => e.asset.name == n)).map
          (fun e => { asset := e.asset, resolved_path := (res_rel e).getD "" })) ∧
      (∀ l0 rest, [[entry_widgets_app], [entry_widgets_fx, entry_utils_fx]] = l0 :: rest →
        ∀ n e0, (managed_entries l0).find? (fun e => e.asset.name == n) = some e0 →
        out.find? (fun r => r.asset.name == n) =
          some { asset := e0.asset, resolved_path := (res_rel e0).getD "" }) :=
  tpa_precedence res_rel [[entry_widgets_app], [entry_widgets_fx, entry_utils_fx]] (by decide)

/-- C3: missing-asset policy of the managed walk.  (i) Entries of the
additional (tolerant) manifests that are satisfiable nowhere are
silently omitted: the result is as if the additional manifests were
absent.  (ii) A name all of whose declaring entries are satisfiable
nowhere never reaches the output, even under caller tolerance.  (iii)
Under the default strict policy, a framework-stack entry that is
satisfiable nowhere and not shadowed by an earlier declaration fails
the whole resolution (the UnresolvableAsset error, embedded as
`none`).  (iv) Under caller-requested tolerance the walk never fails.
(v) Calling `resolve_probe_paths` without the tolerance parameter is
the strict (`false`) call, per the header's default. -/
theorem missing_asset_policy (res : deps_entry_t → Option String)
    (layers additional : List (List deps_entry_t)) :
    (∀ ig, (∀ e ∈ managed_entries additional.flatten, res e = none) →
        resolve_tpa_list res layers additional ig = resolve_tpa_list res layers [] ig) ∧
    (∀ n bc out,
        (∀ e, (e ∈ managed_entries layers.flatten ∨ e ∈ managed_entries additional.flatten) →
          e.asset.name = n → res e = none) →
        resolve_tpa_list res layers additional true = some (bc, out) →
        n ∉ tpa_names out) ∧
    (∀ l1 e l2, managed_entries layers.flatten = l1 ++ e :: l2 →
        res e = none → e.asset.name ∉ entry_names l1 →
        resolve_tpa_list res layers additional false = none) ∧
    ((resolve_tpa_list res layers additional true).isSome = true) ∧
    (∀ (r2 rd2 : deps_entry_t → Option String) (c2 : String)
        (ls2 as2 : List (List deps_entry_t)),
        resolve_probe_paths_default r2 rd2 c2 ls2 as2 =
          resolve_probe_paths r2 rd2 c2 ls2 as2 false) := by
  refine ⟨?_, ?_, ?_, ?_, ?_⟩
  · intro ig h
    rw [resolve_tpa_list, resolve_tpa_list]
    rcases hfx : resolve_tpa_layers res ig layers [] [] with _ | ⟨bc, out⟩
    · simp only [hfx]
    · simp only [hfx]
      rw [resolve_tpa_layers_eq, resolve_tpa_entries_all_unresolvable res _ bc out h]
      rfl
  · intro n bc out h hres0 hmem
    rw [resolve_tpa_list] at hres0
    rcases hfx : resolve_tpa_layers res true layers [] [] with _ | ⟨bc1, out1⟩
    · rw [hfx] at hres0; exact Option.noConfusion hres0
    · rw [hfx] at hres0
      obtain ⟨r, hr, hrn⟩ := List.mem_map.mp hmem
      have horigin2 := resolve_tpa_entries_origin res true
        (managed_entries additional.flatten) bc1 out1 bc out
        (by rw [← resolve_tpa_layers_eq]; exact hres0) r hr
      have hnone_of : ∀ e, (e ∈ managed_entries layers.flatten ∨
          e ∈ managed_entries additional.flatten) →
          r.asset = e.asset → res e ≠ some r.resolved_path := by
        intro e he hasset
        rw [h e he (by rw [← hasset]; exact hrn)]
        exact fun hc => Option.noConfusion hc
      rcases horigin2 with h1 | ⟨e2, he2, ha2, hr2⟩
      · have horigin1 := resolve_tpa_entries_origin res true
          (managed_entries layers.flatten) [] [] bc1 out1
          (by rw [← resolve_tpa_layers_eq]; exact hfx) r h1
        rcases horigin1 with h2 | ⟨e1, he1, ha1, hr1⟩
        · simp at h2
        · exact hnone_of e1 (Or.inl he1) ha1 hr1
      · exact hnone_of e2 (Or.inr he2) ha2 hr2
  · intro l1 e l2 hsplit hnone hnmem
    have hfx : resolve_tpa_layers res false layers [] [] = none := by
      rw [resolve_tpa_layers_eq, hsplit, resolve_tpa_entries_append]
      rcases h1 : resolve_tpa_entries res false l1 [] [] with _ | ⟨bc1, out1⟩
      · simp only [h1]
      · simp only [h1]
        have hnb : e.asset.name ∉ bc1 := by
          intro hb
          rcases resolve_tpa_entries_breadcrumb res false l1 [] [] bc1 out1 h1
            e.asset.name hb with hc | hc
          · simp at hc
          · exact hnmem hc
        rw [resolve_tpa_entries_cons, if_neg hnb]
        simp only [hnone]
        rw [if_neg (by simp)]
    rw [resolve_tpa_list]
    simp only [hfx]
  · have h1 : (resolve_tpa_layers res true layers [] []).isSome = true := by
      rw [resolve_tpa_layers_eq]
      exact resolve_tpa_entries_tolerant_total res _ [] []
    obtain ⟨p, hp⟩ := Option.isSome_iff_exists.mp h1
    rw [resolve_tpa_list]
    rcases p with ⟨bc, out⟩
    simp only [hp]
    rw [resolve_tpa_layers_eq]
    exact resolve_tpa_entries_tolerant_total res _ bc out
  · intro r2 rd2 c2 ls2 as2
    rfl

/-- Witness for C3: Widgets resolves but Utils is satisfiable
nowhere; a tolerant additional manifest declaring Utils is omitted,
a framework layer declaring Utils fails strictly, and the tolerant
call succeeds. -/
theorem missing_asset_policy_witness :
    resolve_tpa_list res_no_utils [[entry_widgets_app]] [[entry_utils_fx]] false
      = resolve_tpa_list res_no_utils [[entry_widgets_app]] [] false ∧
    resolve_tpa_list res_no_utils [[entry_utils_fx]] [] false = none ∧
    (resolve_tpa_list res_no_utils [[entry_utils_fx]] [] true).isSome = true :=
  ⟨(missing_asset_policy res_no_utils [[entry_widgets_app]] [[entry_utils_fx]]).1
      false (by decide),
   (missing_asset_policy res_no_utils [[entry_utils_fx]] []).2.2.1
      [] entry_utils_fx [] (by decide) (by decide) (by decide),
   (missing_asset_policy res_no_utils [[entry_utils_fx]] []).2.2.2.1⟩

/-- C8: resolution is deterministic — for equal framework layer
stacks, probe configurations and oracle answers, two resolution
passes return equal results: the same managed-library, native and
resource output strings and the same breadcrumb membership. -/
theorem resolve_determinism
    (res resdir res2 resdir2 : deps_entry_t → Option String) (cc cc2 : String)
    (layers additional layers2 additional2 : List (List deps_entry_t)) (ig ig2 : Bool)
    (h1 : res = res2) (h2 : resdir = resdir2) (h3 : cc = cc2)
    (h4 : layers = layers2) (h5 : additional = additional2) (h6 : ig = ig2) :
    resolve_probe_paths res resdir cc layers additional ig =
      resolve_probe_paths res2 resdir2 cc2 layers2 additional2 ig2 ∧
    (∀ p bc p2 bc2,
      resolve_probe_paths res resdir cc layers additional ig = some (p, bc) →
      resolve_probe_paths res2 resdir2 cc2 layers2 additional2 ig2 = some (p2, bc2) →
      p.tpa = p2.tpa ∧ p.native = p2.native ∧ p.resources = p2.resources ∧
        (∀ n, n ∈ bc ↔ n ∈ bc2)) := by
  subst h1; subst h2; subst h3; subst h4; subst h5; subst h6
  refine ⟨rfl, ?_⟩
  intro p bc p2 bc2 e1 e2
  rw [e1] at e2
  have h := Option.some.inj e2
  rw [Prod.mk.injEq] at h
  obtain ⟨hp, hbc⟩ := h
  subst hp; subst hbc
  exact ⟨rfl, rfl, rfl, fun n => Iff.rfl⟩

/-- Witness for C8: two passes over the same concrete stack agree. -/
theorem resolve_determinism_witness :
    resolve_probe_paths res_rel res_rel "coreclr" [[entry_widgets_app]] [] false =
      resolve_probe_paths res_rel res_rel "coreclr" [[entry_widgets_app]] [] false :=
  (resolve_determinism res_rel res_rel res_rel res_rel "coreclr" "coreclr"
    [[entry_widgets_app]] [] [[entry_widgets_app]] [] false false
    rfl rfl rfl rfl rfl rfl).1

end DepsResolver
